import Mathlib

/-!
Shallow embedding of the analyzer/cleaner/correlation logic of
`src/data_analyzer.py` (classes `SolarDataAnalyzer`, `DataQualityAssessor`,
`CorrelationAnalyzer`).

Modelling conventions:
* A dataframe cell is a `Value`: a rational number, a string, or a missing
  entry (pandas `NaN`).  A loaded column is numeric when none of its cells is
  a string (pandas assigns a float dtype exactly to such CSV columns, an
  all-missing column included).
* A `Table` is the column-major dataframe: a list of named columns.  The row
  count is the length of the first column; well-formedness (`Table.WF`) says
  every column has that length, which `pd.read_csv` guarantees.
* Exact rational arithmetic replaces IEEE floats.  The two places the code
  compares a quantity involving a square root (`|zscore| > t`,
  `|corr| > t`) are embedded by the equivalent sqrt-free comparison:
  for s > 0 and t ≥ 0, |x|/s > t ↔ x² > t²·s², and for t < 0 the
  comparison is always true; when the variance is 0 the float code produces
  NaN and every `NaN > t` comparison is False, embedded as `false`.
* Division by zero in ℚ yields 0; every theorem that depends on a quotient
  carries the positivity hypothesis (`0 < t.nrows`) that the float code
  needs anyway to avoid NaN percentages.
-/

inductive Value where
  | num (q : ℚ)
  | str (s : String)
  | missing
deriving DecidableEq, Repr

def Value.isna : Value → Bool
  | .missing => true
  | _ => false

def Value.toNum : Value → Option ℚ
  | .num q => some q
  | _ => none

structure Col where
  name : String
  vals : List Value
deriving DecidableEq, Repr

instance : Inhabited Col := ⟨⟨"", []⟩⟩

structure Table where
  cols : List Col
deriving DecidableEq, Repr

/-- Row count of the dataframe: length of its first column (0 if no columns). -/
def Table.nrows (t : Table) : ℕ :=
  match t.cols with
  | [] => 0
  | c :: _ => c.vals.length

/-- Well-formedness: every column has exactly `nrows` entries. -/
def Table.WF (t : Table) : Prop := ∀ c ∈ t.cols, c.vals.length = t.nrows

instance (t : Table) : Decidable t.WF := List.decidableBAll _ t.cols

/-- `df.columns` membership test (`col in self.raw_data.columns`). -/
def Table.hasCol (t : Table) (nm : String) : Bool := t.cols.any (fun c => c.name = nm)

/-- Column selection `df[nm]` (first column of that name). -/
def Table.getCol? (t : Table) (nm : String) : Option Col :=
  t.cols.find? (fun c => c.name = nm)

/-- Non-missing numeric cells of a column, in row order (what pandas/scipy
statistics with `skipna`/`nan_policy=omit` operate on). -/
def colNums (c : Col) : List ℚ := c.vals.filterMap Value.toNum

/-- A column is numeric (`select_dtypes(include=[np.number])`) when no cell is
a string: `read_csv` gives such columns a float dtype. -/
def Col.isNumeric (c : Col) : Bool :=
  c.vals.all (fun v => match v with | .str _ => false | _ => true)

def Table.numericCols (t : Table) : List Col := t.cols.filter Col.isNumeric

/-! ## Cleaner (`SolarDataAnalyzer.clean_data`) -/

/-- The hard-coded measurement columns imputed with their median. -/
def key_columns : List String :=
  ["GHI", "DNI", "DHI", "ModA", "ModB", "WS", "WSgust",
   "Tamb", "RH", "BP", "TModA", "TModB"]

/-- The hard-coded physical quantities clamped to be non-negative. -/
def non_negative_cols : List String :=
  ["GHI", "DNI", "DHI", "ModA", "ModB", "WS", "WSgust", "Precipitation"]

/-- Insertion into a sorted list, ascending. -/
def insertSorted (x : ℚ) : List ℚ → List ℚ
  | [] => [x]
  | y :: ys => if x ≤ y then x :: y :: ys else y :: insertSorted x ys

/-- Ascending insertion sort (the order pandas sorts values in to take the
median). -/
def sortQ (l : List ℚ) : List ℚ := l.foldr insertSorted []

/-- `Series.median()`: median of the non-missing values — middle element for
odd count, mean of the two middle elements for even count, `None` (pandas
`NaN`) when there is no non-missing value. -/
def colMedian (vs : List Value) : Option ℚ :=
  let nums := sortQ (vs.filterMap Value.toNum)
  if nums.isEmpty then none
  else if nums.length % 2 = 1 then some (nums.getD (nums.length / 2) 0)
  else some ((nums.getD (nums.length / 2 - 1) 0 + nums.getD (nums.length / 2) 0) / 2)

/-- Effect of `fillna(m)` on one cell. -/
def fillVal (m : ℚ) (v : Value) : Value :=
  if v = .missing then .num m else v

/-- The imputation step for one key column:
`if df[col].isna().sum() > 0: df[col].fillna(df[col].median(), inplace=True)`.
`fillna(NaN)` — the all-missing-median case — leaves the column unchanged. -/
def imputeCol (c : Col) : Col :=
  if c.vals.any Value.isna then
    match colMedian c.vals with
    | some m => ⟨c.name, c.vals.map (fillVal m)⟩
    | none => c
  else c

/-- Effect of `df.loc[df[col] < 0, col] = 0` on one cell: a negative number
becomes 0, anything else is untouched. -/
def clampVal : Value → Value
  | .num q => if q < 0 then .num 0 else .num q
  | v => v

/-- The clamping step for one non-negative column:
`df.loc[df[col] < 0, col] = 0`. -/
def clampCol (c : Col) : Col := ⟨c.name, c.vals.map clampVal⟩

/-- The per-column effect of `clean_data`: impute if the name is a key
column, then clamp if the name is a non-negative column. -/
def cleanCol (c : Col) : Col :=
  let c1 := if key_columns.contains c.name then imputeCol c else c
  if non_negative_cols.contains c.name then clampCol c1 else c1

/-- `df[nm] = v`: overwrite the column named `nm` with the constant `v` if it
exists, otherwise append it at the end (pandas broadcast assignment). -/
def setCol (t : Table) (nm : String) (v : Value) : Table :=
  if t.hasCol nm then
    ⟨t.cols.map (fun c =>
      if c.name = nm then ⟨nm, List.replicate t.nrows v⟩ else c)⟩
  else ⟨t.cols ++ [⟨nm, List.replicate t.nrows v⟩]⟩

/-- `SolarDataAnalyzer.clean_data`: copy the table, impute the available key
columns with their median, clamp the non-negative columns, then set the
`Cleaning` marker column to the constant string. -/
def clean_data (t : Table) : Table :=
  setCol ⟨t.cols.map cleanCol⟩ "Cleaning" (.str "Post-Clean")

/-! ## Quality analyzer (`SolarDataAnalyzer.analyze_missing_values`) -/

/-- Missing cells of one column: `df[col].isna().sum()`. -/
def colMissing (c : Col) : ℕ := c.vals.countP Value.isna

structure MissingReport where
  missing_count : List (String × ℕ)
  missing_percent : List (String × ℚ)
  critical_columns : List String
  overall_completeness : ℚ
  threshold : ℚ
deriving Repr

/-- `SolarDataAnalyzer.analyze_missing_values`. -/
def analyze_missing_values (t : Table) (threshold : ℚ) : MissingReport :=
  let percents := t.cols.map (fun c => (c.name, ((colMissing c : ℚ) / (t.nrows : ℚ)) * 100))
  { missing_count := t.cols.map (fun c => (c.name, colMissing c))
  , missing_percent := percents
  , critical_columns := (percents.filter (fun p => threshold < p.2)).map Prod.fst
  , overall_completeness :=
      100 - (((t.cols.map colMissing).sum : ℚ) / ((t.nrows : ℚ) * (t.cols.length : ℚ))) * 100
  , threshold := threshold }

/-! ## Outlier detector (`SolarDataAnalyzer.detect_outliers`) -/

/-- Mean of a column's non-missing values (`scipy.stats.zscore` numerator). -/
def colMean (c : Col) : ℚ :=
  let xs := colNums c
  xs.sum / (xs.length : ℚ)

/-- Population variance (ddof = 0, the `scipy.stats.zscore` default) of a
column's non-missing values. -/
def colVar (c : Col) : ℚ :=
  let xs := colNums c
  ((xs.map (fun x => x ^ 2)).sum / (xs.length : ℚ)) - (colMean c) ^ 2

/-- The comparison `|x - mean| / sqrt(var) > t` of the float code, written
without the square root: for `var > 0` and `t ≥ 0` it is equivalent to
`(x - mean)² > t²·var`; for `var > 0` and `t < 0` the left side is a
non-negative real, hence always greater; for `var = 0` the float z-score is
`0/0 = NaN` and `NaN > t` is `False`. -/
def absZGT (x mean var t : ℚ) : Bool :=
  if var = 0 then false
  else if t < 0 then true
  else decide ((x - mean) ^ 2 > t ^ 2 * var)

/-- The cell of a column at row `r` (out-of-range reads give a missing
cell; well-formed tables are never read out of range). -/
def cellAt (c : Col) (r : ℕ) : Value := c.vals.getD r Value.missing

/-- Outlier test of one cell (row `r`, requested column `nm`): the cell must
hold a number, and its column z-score magnitude must exceed the threshold.
A missing cell has z-score NaN under `nan_policy=omit`, never a flag. -/
def cellFlag (t : Table) (thr : ℚ) (r : ℕ) (nm : String) : Bool :=
  ((t.getCol? nm).bind fun c =>
    ((cellAt c r).toNum).map fun x =>
      absZGT x (colMean c) (colVar c) thr).getD false

/-- Row `r` of `(np.abs(zscore(df[available], nan_policy=omit)) > t).any(axis=1)`. -/
def rowFlag (t : Table) (available : List String) (thr : ℚ) (r : ℕ) : Bool :=
  available.any (cellFlag t thr r)

/-- `SolarDataAnalyzer.detect_outliers`: keep the requested columns present in
the table, raise if none remains, else return the per-row any-column flag. -/
def detect_outliers (t : Table) (columns : List String) (z_threshold : ℚ) :
    Except String (List Bool) :=
  let available := columns.filter t.hasCol
  if available.isEmpty then
    .error "None of the specified columns found"
  else
    .ok ((List.range t.nrows).map (rowFlag t available z_threshold))

/-! ## Quality scorer (`DataQualityAssessor`) -/

structure OutlierResult where
  mask : List Bool
  count : ℕ
  percentage : ℚ
deriving Repr

/-- The `analysis_results` store accumulated on the analyzer object. -/
structure AnalysisResults where
  missing_values : Option MissingReport
  outliers : Option OutlierResult

/-- `DataQualityAssessor.assess_completeness`: stored overall completeness,
or 0.0 when no missing-value analysis was run. -/
def assess_completeness (r : AnalysisResults) : ℚ :=
  match r.missing_values with
  | some m => m.overall_completeness
  | none => 0

/-- `DataQualityAssessor.assess_outlier_rate`: stored outlier percentage, or
0.0 when no outlier analysis was run. -/
def assess_outlier_rate (r : AnalysisResults) : ℚ :=
  match r.outliers with
  | some o => o.percentage
  | none => 0

structure QualityScore where
  completeness : ℚ
  outlier_rate : ℚ
  quality_score : ℚ
deriving Repr

/-- `DataQualityAssessor.get_quality_score`:
`quality_score = completeness * 0.7 + (100 - outlier_rate) * 0.3`. -/
def get_quality_score (r : AnalysisResults) : QualityScore :=
  let completeness := assess_completeness r
  let outlier_rate := assess_outlier_rate r
  { completeness := completeness
  , outlier_rate := outlier_rate
  , quality_score := completeness * (7 / 10) + (100 - outlier_rate) * (3 / 10) }

/-! ## Correlation analyzer (`CorrelationAnalyzer`) -/

/-- Rows where both columns have a number: the pairwise-complete observations
pandas `DataFrame.corr()` uses for each matrix entry. -/
def completePairs (xs ys : List Value) : List (ℚ × ℚ) :=
  (xs.zip ys).filterMap (fun p =>
    match p.1.toNum, p.2.toNum with
    | some a, some b => some (a, b)
    | _, _ => none)

/-- Exact representation of one Pearson matrix entry over the complete pairs,
scaled by n²: `cov = n·Σxy − Σx·Σy`, `varx = n·Σx² − (Σx)²`,
`vary = n·Σy² − (Σy)²`.  The float entry is `cov / sqrt(varx·vary)`
(NaN when a variance is 0), and the scaling cancels in that quotient. -/
structure CorrEntry where
  cov : ℚ
  varx : ℚ
  vary : ℚ
deriving DecidableEq, Repr

def corrEntry (xs ys : List Value) : CorrEntry :=
  let ps := completePairs xs ys
  let n : ℚ := (ps.length : ℚ)
  { cov := n * (ps.map (fun p => p.1 * p.2)).sum - (ps.map Prod.fst).sum * (ps.map Prod.snd).sum
  , varx := n * (ps.map (fun p => p.1 ^ 2)).sum - (ps.map Prod.fst).sum ^ 2
  , vary := n * (ps.map (fun p => p.2 ^ 2)).sum - (ps.map Prod.snd).sum ^ 2 }

/-- The comparison `abs(corr_matrix.iloc[i, j]) > threshold` of the float
code, square-root free: `|corr| = |cov|/sqrt(varx·vary)`, so for `t ≥ 0`
and positive variances it is `cov² > t²·varx·vary`; a zero variance makes
the float entry NaN and the comparison False; `t < 0` makes it true for
every non-NaN entry. -/
def absCorrGT (e : CorrEntry) (t : ℚ) : Bool :=
  if e.varx = 0 ∨ e.vary = 0 then false
  else if t < 0 then true
  else decide (e.cov ^ 2 > t ^ 2 * e.varx * e.vary)

/-- Correlation matrix of a list of columns, kept exact: the column labels
and the `CorrEntry` for every ordered pair. -/
structure CorrMatrix where
  names : List String
  entries : List (List CorrEntry)
deriving Repr

def corrMatrix (cols : List Col) : CorrMatrix :=
  { names := cols.map Col.name
  , entries := cols.map (fun ci => cols.map (fun cj => corrEntry ci.vals cj.vals)) }

/-- `CorrelationAnalyzer.analyze_correlations`: keep the requested columns
present in the data, raise unless at least 2 remain, else return the
correlation matrix of the selected columns. -/
def analyze_correlations (t : Table) (columns : List String) :
    Except String CorrMatrix :=
  let available := columns.filter t.hasCol
  if available.length < 2 then
    .error "Need at least 2 columns for correlation analysis"
  else
    .ok (corrMatrix (available.filterMap t.getCol?))

/-- The loop-body test `abs(corr_matrix.iloc[i, j]) > threshold` for an
index pair. -/
def strongFlag (cols : List Col) (thr : ℚ) (p : ℕ × ℕ) : Bool :=
  absCorrGT (corrEntry (cols.getD p.1 default).vals (cols.getD p.2 default).vals) thr

/-- The appended triple `(corr_matrix.columns[i], corr_matrix.columns[j],
corr_matrix.iloc[i, j])` for an index pair. -/
def strongTriple (cols : List Col) (p : ℕ × ℕ) : String × String × CorrEntry :=
  ((cols.getD p.1 default).name, (cols.getD p.2 default).name,
   corrEntry (cols.getD p.1 default).vals (cols.getD p.2 default).vals)

/-- `CorrelationAnalyzer.get_strong_correlations`: correlation matrix over
all numeric columns, then the double loop `for i in range(n): for j in
range(i+1, n)` keeping the entries with `abs(corr) > threshold` as
`(column_i, column_j, corr)` triples. -/
def get_strong_correlations (t : Table) (threshold : ℚ) :
    List (String × String × CorrEntry) :=
  let cols := t.numericCols
  let n := cols.length
  (List.range n).flatMap (fun i =>
    (List.range' (i + 1) (n - (i + 1))).filterMap (fun j =>
      if strongFlag cols threshold (i, j) then some (strongTriple cols (i, j)) else none))

/-! ## Spec-side descriptions used to state the refinement claims -/

/-- The upper-triangular index pairs `(i, j)`, `i < j < n`, in the
lexicographic order the double loop visits them. -/
def upperTriPairs (n : ℕ) : List (ℕ × ℕ) :=
  (List.range n).flatMap (fun i =>
    (List.range' (i + 1) (n - (i + 1))).map (fun j => (i, j)))

/-- The marker column `clean_data` writes. -/
def markerCol (t : Table) : Col :=
  ⟨"Cleaning", List.replicate t.nrows (.str "Post-Clean")⟩

/-! ## Concrete tables used by the scenario claim and the witnesses -/

/-- The spec's scenario table: columns [GHI, DNI, Country] with rows
(100, 50, "Benin"), (None, 60, "Togo"), (-5, 55, "Benin"). -/
def scenarioTable : Table :=
  ⟨[⟨"GHI", [.num 100, .missing, .num (-5)]⟩,
    ⟨"DNI", [.num 50, .num 60, .num 55]⟩,
    ⟨"Country", [.str "Benin", .str "Togo", .str "Benin"]⟩]⟩

/-- A table that already carries a `Cleaning` column before any cleaning. -/
def preMarkedTable : Table :=
  ⟨[⟨"Cleaning", [.str "Pre-Clean"]⟩, ⟨"GHI", [.num 1]⟩]⟩

/-- A table with a single numeric column. -/
def oneColTable : Table := ⟨[⟨"GHI", [.num 1, .num 2]⟩]⟩

/-- An analysis-results store holding a perfect completeness result and no
outlier result. -/
def perfectResults : AnalysisResults :=
  { missing_values := some
      { missing_count := []
      , missing_percent := []
      , critical_columns := []
      , overall_completeness := 100
      , threshold := 5 }
  , outliers := none }

/-! ## Theorems -/

/-! ### Pointwise evaluation lemmas for the cleaning cell functions -/

theorem fillVal_num (m q : ℚ) : fillVal m (Value.num q) = Value.num q := rfl

theorem fillVal_str (m : ℚ) (s : String) : fillVal m (Value.str s) = Value.str s := rfl

theorem fillVal_missing (m : ℚ) : fillVal m Value.missing = Value.num m := rfl

theorem clampVal_num (q : ℚ) :
    clampVal (Value.num q) = if q < 0 then Value.num 0 else Value.num q := rfl

theorem clampVal_str (s : String) : clampVal (Value.str s) = Value.str s := rfl

theorem clampVal_missing : clampVal Value.missing = Value.missing := rfl

/-- C1 (counterexample): on the scenario table the cleaned GHI column is NOT
`[100, 100, 0]`: `clean_data` computes the median over the non-missing
values {100, -5} (the clamp to 0 happens only after imputation), so the
imputed value is 47.5, not 100. -/
theorem C1_counterexample :
    Table.getCol? (clean_data scenarioTable) "GHI"
      ≠ some ⟨"GHI", [.num 100, .num 100, .num 0]⟩ := by
  norm_num [Table.getCol?, clean_data, scenarioTable, setCol, Table.hasCol, cleanCol,
    key_columns, non_negative_cols, imputeCol, clampCol, Value.isna,
    colMedian, sortQ, insertSorted, Value.toNum, List.find?, Table.nrows, List.filterMap_cons,
    fillVal_num, fillVal_str, fillVal_missing, clampVal_num, clampVal_str, clampVal_missing]

/-- C1 (amended): on the scenario table, `clean_data` yields GHI column
`[100, 47.5, 0]` — the missing entry imputed with the median 47.5 of the
non-missing values {100, -5}, computed before any overwrite, and the
negative entry clamped to 0 — and `analyze_missing_values` reports GHI
missing_count = 1 and missing_percent = 100/3 (≈ 33.33). -/
theorem C1_amended :
    Table.getCol? (clean_data scenarioTable) "GHI"
        = some ⟨"GHI", [.num 100, .num ((95 : ℚ) / 2), .num 0]⟩
    ∧ ("GHI", 1) ∈ (analyze_missing_values scenarioTable 5).missing_count
    ∧ ("GHI", (100 : ℚ) / 3) ∈ (analyze_missing_values scenarioTable 5).missing_percent := by
  refine ⟨?_, ?_, ?_⟩
  · norm_num [Table.getCol?, clean_data, scenarioTable, setCol, Table.hasCol, cleanCol,
      key_columns, non_negative_cols, imputeCol, clampCol, Value.isna,
      colMedian, sortQ, insertSorted, Value.toNum, List.find?, Table.nrows, List.filterMap_cons,
      fillVal_num, fillVal_str, fillVal_missing, clampVal_num, clampVal_str, clampVal_missing]
  · norm_num [analyze_missing_values, scenarioTable, colMissing, List.countP_cons, Value.isna]
  · norm_num [analyze_missing_values, scenarioTable, colMissing, Table.nrows,
      List.countP_cons, Value.isna]

/-- C9: the quality score is always
`0.7 × completeness + 0.3 × (100 − outlier_rate)` with each metric read
from the results store and taken as 0 when absent; it lies in [0, 100]
whenever the metrics do, and equals exactly 100 when completeness = 100 and
outlier_rate = 0. -/
theorem get_quality_score_spec (r : AnalysisResults) :
    (get_quality_score r).quality_score
        = assess_completeness r * (7 / 10) + (100 - assess_outlier_rate r) * (3 / 10)
    ∧ (get_quality_score r).completeness = assess_completeness r
    ∧ (get_quality_score r).outlier_rate = assess_outlier_rate r
    ∧ (r.missing_values = none → assess_completeness r = 0)
    ∧ (r.outliers = none → assess_outlier_rate r = 0)
    ∧ (0 ≤ assess_completeness r → assess_completeness r ≤ 100 →
        0 ≤ assess_outlier_rate r → assess_outlier_rate r ≤ 100 →
        0 ≤ (get_quality_score r).quality_score ∧ (get_quality_score r).quality_score ≤ 100)
    ∧ (assess_completeness r = 100 → assess_outlier_rate r = 0 →
        (get_quality_score r).quality_score = 100) := by
  refine ⟨rfl, rfl, rfl, ?_, ?_, ?_, ?_⟩
  · intro h; simp [assess_completeness, h]
  · intro h; simp [assess_outlier_rate, h]
  · intro h1 h2 h3 h4
    refine ⟨?_, ?_⟩ <;>
      · simp only [get_quality_score]
        linarith
  · intro h1 h2
    simp only [get_quality_score, h1, h2]
    norm_num

/-- C9 witness: a store with a perfect completeness result and no outlier
result scores exactly 100, within [0, 100]. -/
theorem get_quality_score_spec_witness :
    (get_quality_score perfectResults).quality_score = 100
    ∧ 0 ≤ (get_quality_score perfectResults).quality_score
    ∧ (get_quality_score perfectResults).quality_score ≤ 100 := by
  have h := get_quality_score_spec perfectResults
  have h100 : assess_completeness perfectResults = 100 := rfl
  have h0 : assess_outlier_rate perfectResults = 0 := rfl
  refine ⟨h.2.2.2.2.2.2 h100 h0, ?_, ?_⟩
  · exact (h.2.2.2.2.2.1 (by rw [h100]; norm_num) (by rw [h100]) (by rw [h0]) (by rw [h0]; norm_num)).1
  · exact (h.2.2.2.2.2.1 (by rw [h100]; norm_num) (by rw [h100]) (by rw [h0]) (by rw [h0]; norm_num)).2

/-! ### Helper lemmas about column lookup -/

theorem hasCol_iff_getCol (t : Table) (nm : String) :
    t.hasCol nm = true ↔ ∃ c, t.getCol? nm = some c := by
  rw [Table.hasCol, Table.getCol?, List.any_eq_true]
  constructor
  · rintro ⟨c, hc, hname⟩
    have : (List.find? (fun c => decide (c.name = nm)) t.cols).isSome := by
      rw [List.find?_isSome]
      exact ⟨c, hc, hname⟩
    exact Option.isSome_iff_exists.mp this
  · rintro ⟨c, hc⟩
    refine ⟨c, List.mem_of_find?_eq_some hc, ?_⟩
    have h2 := List.find?_some hc
    simpa using h2

theorem getCol_name (t : Table) (nm : String) (c : Col)
    (h : t.getCol? nm = some c) : c.name = nm := by
  unfold Table.getCol? at h
  have h2 := List.find?_some h
  simpa using h2

theorem names_filterMap_getCol (t : Table) :
    ∀ l : List String, (∀ nm ∈ l, t.hasCol nm = true) →
      (l.filterMap t.getCol?).map Col.name = l := by
  intro l
  induction l with
  | nil => simp
  | cons nm rest ih =>
    intro hall
    obtain ⟨c, hc⟩ := (hasCol_iff_getCol t nm).mp (hall nm (by simp))
    have hname := getCol_name t nm c hc
    simp only [List.filterMap_cons, hc, List.map_cons, hname]
    rw [ih (fun x hx => hall x (by simp [hx]))]

/-- C10: `get_strong_correlations` never fails — on a table with fewer than
two numeric columns the double loop is empty and it returns `[]` — whereas
`analyze_correlations` raises its error whenever fewer than 2 of the
requested columns exist in the table. -/
theorem get_strong_correlations_total (t : Table) (thr : ℚ) (columns : List String) :
    (t.numericCols.length < 2 → get_strong_correlations t thr = [])
    ∧ ((columns.filter t.hasCol).length < 2 →
        analyze_correlations t columns
          = .error "Need at least 2 columns for correlation analysis") := by
  constructor
  · intro h
    have h01 : t.numericCols.length = 0 ∨ t.numericCols.length = 1 := by omega
    rcases h01 with h0 | h1
    · simp [get_strong_correlations, h0]
    · simp [get_strong_correlations, h1]
  · intro h
    simp only [analyze_correlations]
    rw [if_pos h]

/-- C10 witness: on a one-numeric-column table the strong-correlation list
is empty, and a request with no matching columns makes
`analyze_correlations` fail. -/
theorem get_strong_correlations_total_witness :
    oneColTable.numericCols.length < 2
    ∧ get_strong_correlations oneColTable 1 = []
    ∧ (["A", "B"].filter oneColTable.hasCol).length < 2
    ∧ analyze_correlations oneColTable ["A", "B"]
        = .error "Need at least 2 columns for correlation analysis" := by
  have h := get_strong_correlations_total oneColTable 1 ["A", "B"]
  exact ⟨by decide, h.1 (by decide), by decide, h.2 (by decide)⟩

/-- C8: `analyze_correlations` fails exactly when fewer than 2 of the
requested columns exist in the table, and otherwise returns the correlation
matrix over precisely the requested columns that are present, in request
order, silently ignoring the absent ones. -/
theorem analyze_correlations_spec (t : Table) (columns : List String) :
    ((∃ e, analyze_correlations t columns = .error e)
        ↔ (columns.filter t.hasCol).length < 2)
    ∧ (∀ m, analyze_correlations t columns = .ok m →
        m = corrMatrix ((columns.filter t.hasCol).filterMap t.getCol?)
        ∧ m.names = columns.filter t.hasCol) := by
  have hnames : ((columns.filter t.hasCol).filterMap t.getCol?).map Col.name
      = columns.filter t.hasCol :=
    names_filterMap_getCol t _ (fun nm hnm => (List.mem_filter.mp hnm).2)
  by_cases hlt : (columns.filter t.hasCol).length < 2
  · refine ⟨⟨fun _ => hlt,
      fun _ => ⟨"Need at least 2 columns for correlation analysis", ?_⟩⟩, fun m hm => ?_⟩
    · simp only [analyze_correlations]
      rw [if_pos hlt]
    · exfalso
      simp only [analyze_correlations] at hm
      rw [if_pos hlt] at hm
      exact Except.noConfusion hm
  · have hok : analyze_correlations t columns
        = .ok (corrMatrix ((columns.filter t.hasCol).filterMap t.getCol?)) := by
      simp only [analyze_correlations]
      rw [if_neg hlt]
    refine ⟨⟨fun ⟨e, he⟩ => ?_, fun h => absurd h hlt⟩, fun m hm => ?_⟩
    · rw [hok] at he
      exact Except.noConfusion he
    · rw [hok] at hm
      have hm' := Except.ok.inj hm
      subst hm'
      exact ⟨rfl, hnames⟩

/-- C8 witness: requesting [GHI, DNI, Bogus] on the scenario table succeeds
and the returned matrix is labelled by exactly the present columns
[GHI, DNI]. -/
theorem analyze_correlations_spec_witness :
    analyze_correlations scenarioTable ["GHI", "DNI", "Bogus"]
        = .ok (corrMatrix ((["GHI", "DNI", "Bogus"].filter scenarioTable.hasCol).filterMap
            scenarioTable.getCol?))
    ∧ (corrMatrix ((["GHI", "DNI", "Bogus"].filter scenarioTable.hasCol).filterMap
        scenarioTable.getCol?)).names = ["GHI", "DNI"] := by
  have h := analyze_correlations_spec scenarioTable ["GHI", "DNI", "Bogus"]
  have hok : analyze_correlations scenarioTable ["GHI", "DNI", "Bogus"]
      = .ok (corrMatrix ((["GHI", "DNI", "Bogus"].filter scenarioTable.hasCol).filterMap
          scenarioTable.getCol?)) := by
    simp only [analyze_correlations]
    rw [if_neg (by decide)]
  refine ⟨hok, ?_⟩
  have := (h.2 _ hok).2
  rw [this]
  decide

/-- C2: for every loaded (well-formed, non-empty) table and threshold,
`analyze_missing_values` reports per column the missing-cell count and the
percentage `count / rows × 100` (always within [0, 100]); the critical
columns are exactly those whose percentage strictly exceeds the threshold;
and the overall completeness is `100 − total missing / (rows × columns) ×
100`, computed over the full cell count. -/
theorem analyze_missing_values_spec (t : Table) (threshold : ℚ)
    (hwf : t.WF) (hn : 0 < t.nrows) :
    (analyze_missing_values t threshold).missing_count
        = t.cols.map (fun c => (c.name, colMissing c))
    ∧ (analyze_missing_values t threshold).missing_percent
        = t.cols.map (fun c => (c.name, (colMissing c : ℚ) / (t.nrows : ℚ) * 100))
    ∧ (∀ p ∈ (analyze_missing_values t threshold).missing_percent, 0 ≤ p.2 ∧ p.2 ≤ 100)
    ∧ (analyze_missing_values t threshold).critical_columns
        = (t.cols.filter
            (fun c => threshold < (colMissing c : ℚ) / (t.nrows : ℚ) * 100)).map Col.name
    ∧ (analyze_missing_values t threshold).overall_completeness
        = 100 - ((t.cols.map colMissing).sum : ℚ)
            / ((t.nrows : ℚ) * (t.cols.length : ℚ)) * 100 := by
  have hn' : (0 : ℚ) < (t.nrows : ℚ) := by exact_mod_cast hn
  refine ⟨rfl, rfl, ?_, ?_, rfl⟩
  · intro p hp
    simp only [analyze_missing_values, List.mem_map] at hp
    obtain ⟨c, hc, rfl⟩ := hp
    have hcount : (colMissing c : ℚ) ≤ (t.nrows : ℚ) := by
      have h1 : colMissing c ≤ c.vals.length := List.countP_le_length _
      have h2 := hwf c hc
      exact_mod_cast h2 ▸ h1
    have hpos : (0 : ℚ) ≤ (colMissing c : ℚ) := by positivity
    constructor
    · positivity
    · have hdiv : (colMissing c : ℚ) / (t.nrows : ℚ) ≤ 1 := by
        rw [div_le_one hn']
        exact hcount
      nlinarith
  · show ((t.cols.map _).filter _).map _ = _
    rw [List.filter_map, List.map_map]
    rfl

/-- C2 witness: the bounds hold on the scenario table. -/
theorem analyze_missing_values_spec_witness :
    scenarioTable.WF
    ∧ 0 < scenarioTable.nrows
    ∧ (∀ p ∈ (analyze_missing_values scenarioTable 5).missing_percent, 0 ≤ p.2 ∧ p.2 ≤ 100) := by
  have h := analyze_missing_values_spec scenarioTable 5 (by decide) (by decide)
  exact ⟨by decide, by decide, h.2.2.1⟩

/-! ### Variance non-negativity (Cauchy–Schwarz for lists) -/

theorem two_mul_sum_le (x : ℚ) (l : List ℚ) :
    2 * x * l.sum ≤ (l.length : ℚ) * x ^ 2 + (l.map (fun y => y ^ 2)).sum := by
  induction l with
  | nil => simp
  | cons y ys ih =>
    simp only [List.sum_cons, List.map_cons, List.length_cons]
    push_cast
    have h2 := two_mul_le_add_sq x y
    nlinarith [ih]

theorem sq_sum_le_len_mul_sum_sq (l : List ℚ) :
    l.sum ^ 2 ≤ (l.length : ℚ) * (l.map (fun y => y ^ 2)).sum := by
  induction l with
  | nil => simp
  | cons y ys ih =>
    simp only [List.sum_cons, List.map_cons, List.length_cons]
    push_cast
    have h2 := two_mul_sum_le y ys
    nlinarith [ih]

theorem listVar_nonneg (xs : List ℚ) :
    0 ≤ ((xs.map (fun x => x ^ 2)).sum / (xs.length : ℚ)) - (xs.sum / (xs.length : ℚ)) ^ 2 := by
  rcases xs with _ | ⟨x, l⟩
  · simp
  · have hlen : (0 : ℚ) < ((x :: l : List ℚ).length : ℚ) := by
      simp only [List.length_cons]
      push_cast
      positivity
    have key := sq_sum_le_len_mul_sum_sq (x :: l)
    rw [sub_nonneg, div_pow, div_le_div_iff₀ (pow_pos hlen 2) hlen]
    nlinarith [key, hlen]

theorem colVar_nonneg (c : Col) : 0 ≤ colVar c :=
  listVar_nonneg (colNums c)

/-- Antitonicity of the z-score comparison in the threshold. -/
theorem absZGT_mono {x mean var t1 t2 : ℚ} (hv : 0 ≤ var) (h : t1 ≤ t2) :
    absZGT x mean var t2 = true → absZGT x mean var t1 = true := by
  unfold absZGT
  by_cases h0 : var = 0
  · simp [h0]
  · simp only [h0, if_false]
    by_cases ht1 : t1 < 0
    · simp [ht1]
    · have ht2 : ¬ t2 < 0 := fun hlt => ht1 (lt_of_le_of_lt h hlt)
      simp only [ht1, ht2, if_false, decide_eq_true_eq]
      intro hgt
      have h1 : 0 ≤ t1 := le_of_not_lt ht1
      have hsq : t1 ^ 2 ≤ t2 ^ 2 := by nlinarith
      nlinarith

theorem cellFlag_mono (t : Table) {t1 t2 : ℚ} (h : t1 ≤ t2) (r : ℕ) (nm : String) :
    cellFlag t t2 r nm = true → cellFlag t t1 r nm = true := by
  unfold cellFlag
  rcases t.getCol? nm with _ | c
  · simp
  · change (((cellAt c r).toNum).map
        (fun x => absZGT x (colMean c) (colVar c) t2)).getD false = true →
      (((cellAt c r).toNum).map
        (fun x => absZGT x (colMean c) (colVar c) t1)).getD false = true
    rcases (cellAt c r).toNum with _ | x
    · simp
    · change absZGT x (colMean c) (colVar c) t2 = true → absZGT x (colMean c) (colVar c) t1 = true
      exact absZGT_mono (colVar_nonneg c) h

/-- C4: for a fixed table and requested column list, the number of flagged
rows does not increase as the z-score threshold grows. -/
theorem detect_outliers_antitone (t : Table) (columns : List String) (t1 t2 : ℚ)
    (h12 : t1 < t2) (m1 m2 : List Bool)
    (h1 : detect_outliers t columns t1 = .ok m1)
    (h2 : detect_outliers t columns t2 = .ok m2) :
    m2.count true ≤ m1.count true := by
  simp only [detect_outliers] at h1 h2
  by_cases hemp : (columns.filter t.hasCol).isEmpty
  · rw [if_pos hemp] at h1
    exact absurd h1 (by simp)
  · rw [if_neg hemp] at h1 h2
    have hm1 := (Except.ok.inj h1).symm
    have hm2 := (Except.ok.inj h2).symm
    subst hm1
    subst hm2
    rw [List.count_eq_countP, List.count_eq_countP, List.countP_map, List.countP_map]
    apply List.countP_mono_left
    intro r _ hr
    simp only [Function.comp_apply, beq_iff_eq] at hr ⊢
    unfold rowFlag at hr ⊢
    rw [List.any_eq_true] at hr ⊢
    obtain ⟨nm, hnm, hflag⟩ := hr
    exact ⟨nm, hnm, cellFlag_mono t (le_of_lt h12) r nm hflag⟩

/-- C4 witness: on the scenario table with columns [GHI, DNI] the
outlier count at threshold 1/2 is at least the count at threshold 1. -/
theorem detect_outliers_antitone_witness :
    detect_outliers scenarioTable ["GHI", "DNI"] (1 / 2) = .ok [true, true, true]
    ∧ detect_outliers scenarioTable ["GHI", "DNI"] 1 = .ok [true, true, false]
    ∧ ([true, true, false] : List Bool).count true
        ≤ ([true, true, true] : List Bool).count true := by
  have hav : ["GHI", "DNI"].filter scenarioTable.hasCol = ["GHI", "DNI"] := by decide
  have hGHI : scenarioTable.getCol? "GHI"
      = some ⟨"GHI", [.num 100, .missing, .num (-5)]⟩ := by decide
  have hDNI : scenarioTable.getCol? "DNI"
      = some ⟨"DNI", [.num 50, .num 60, .num 55]⟩ := by decide
  have hn : scenarioTable.nrows = 3 := by decide
  have hhalf : detect_outliers scenarioTable ["GHI", "DNI"] (1 / 2) = .ok [true, true, true] := by
    simp only [detect_outliers, hav]
    rw [if_neg (by decide)]
    norm_num [hn, List.range_succ, rowFlag, cellFlag, cellAt, hGHI, hDNI,
      colMean, colVar, colNums, Value.toNum, absZGT, List.filterMap_cons, List.getD]
  have hone : detect_outliers scenarioTable ["GHI", "DNI"] 1 = .ok [true, true, false] := by
    simp only [detect_outliers, hav]
    rw [if_neg (by decide)]
    norm_num [hn, List.range_succ, rowFlag, cellFlag, cellAt, hGHI, hDNI,
      colMean, colVar, colNums, Value.toNum, absZGT, List.filterMap_cons, List.getD]
  exact ⟨hhalf, hone,
    detect_outliers_antitone scenarioTable ["GHI", "DNI"] (1 / 2) 1 (by norm_num) _ _ hhalf hone⟩

/-- The per-cell outlier test, characterized. -/
theorem cellFlag_eq_true_iff (t : Table) (thr : ℚ) (r : ℕ) (nm : String) :
    cellFlag t thr r nm = true ↔
      ∃ c, t.getCol? nm = some c ∧
        ∃ x, (cellAt c r).toNum = some x ∧
          absZGT x (colMean c) (colVar c) thr = true := by
  unfold cellFlag
  rcases t.getCol? nm with _ | c
  · simp
  · change (((cellAt c r).toNum).map
        (fun x => absZGT x (colMean c) (colVar c) thr)).getD false = true ↔ _
    rcases hx : (cellAt c r).toNum with _ | x
    · simp [hx]
    · simp [hx]

/-- C3: when at least one requested column exists in the table,
`detect_outliers` succeeds and returns one boolean per row of the source
table; a row is flagged exactly when some requested column present in the
table holds a number in that row whose z-score magnitude — mean and
standard deviation taken over that column's non-missing values only —
exceeds the threshold.  A row whose cell is missing in a column
contributes nothing for that column. -/
theorem detect_outliers_spec (t : Table) (columns : List String) (thr : ℚ)
    (hav : columns.filter t.hasCol ≠ []) :
    ∃ mask, detect_outliers t columns thr = .ok mask ∧ mask.length = t.nrows ∧
      ∀ r, r < t.nrows →
        (mask.getD r false = true ↔
          ∃ nm ∈ columns, ∃ c, t.getCol? nm = some c ∧
            ∃ x, (cellAt c r).toNum = some x ∧
              absZGT x (colMean c) (colVar c) thr = true) := by
  have hne : ¬ (columns.filter t.hasCol).isEmpty := by
    simpa [List.isEmpty_iff] using hav
  refine ⟨(List.range t.nrows).map (rowFlag t (columns.filter t.hasCol) thr), ?_, by simp, ?_⟩
  · simp only [detect_outliers]
    rw [if_neg hne]
  · intro r hr
    have hlen : r < ((List.range t.nrows).map (rowFlag t (columns.filter t.hasCol) thr)).length := by
      simpa using hr
    rw [List.getD_eq_getElem _ _ hlen, List.getElem_map, List.getElem_range]
    unfold rowFlag
    rw [List.any_eq_true]
    constructor
    · rintro ⟨nm, hnm, hflag⟩
      obtain ⟨c, hc, x, hx, hz⟩ := (cellFlag_eq_true_iff t thr r nm).mp hflag
      exact ⟨nm, (List.mem_filter.mp hnm).1, c, hc, x, hx, hz⟩
    · rintro ⟨nm, hnm, c, hc, x, hx, hz⟩
      have hhas : t.hasCol nm = true := (hasCol_iff_getCol t nm).mpr ⟨c, hc⟩
      refine ⟨nm, List.mem_filter.mpr ⟨hnm, hhas⟩, ?_⟩
      exact (cellFlag_eq_true_iff t thr r nm).mpr ⟨c, hc, x, hx, hz⟩

/-- C3 witness: on the scenario table with request [GHI, DNI, Bogus] the
mask exists, has one entry per row, and satisfies the characterization. -/
theorem detect_outliers_spec_witness :
    ["GHI", "DNI", "Bogus"].filter scenarioTable.hasCol ≠ []
    ∧ ∃ mask, detect_outliers scenarioTable ["GHI", "DNI", "Bogus"] 1 = .ok mask
        ∧ mask.length = scenarioTable.nrows
        ∧ ∀ r, r < scenarioTable.nrows →
            (mask.getD r false = true ↔
              ∃ nm ∈ ["GHI", "DNI", "Bogus"], ∃ c, scenarioTable.getCol? nm = some c ∧
                ∃ x, (cellAt c r).toNum = some x ∧
                  absZGT x (colMean c) (colVar c) 1 = true) := by
  exact ⟨by decide, detect_outliers_spec scenarioTable ["GHI", "DNI", "Bogus"] 1 (by decide)⟩

/-! ### Structural lemmas about the cleaning steps -/

theorem imputeCol_name (c : Col) : (imputeCol c).name = c.name := by
  unfold imputeCol
  split
  · split <;> rfl
  · rfl

theorem clampCol_name (c : Col) : (clampCol c).name = c.name := rfl

theorem cleanCol_name (c : Col) : (cleanCol c).name = c.name := by
  unfold cleanCol
  by_cases hk : c.name ∈ key_columns <;>
    by_cases hn : c.name ∈ non_negative_cols <;>
      simp [hk, hn, clampCol_name, imputeCol_name]

theorem imputeCol_length (c : Col) : (imputeCol c).vals.length = c.vals.length := by
  unfold imputeCol
  split
  · split <;> simp
  · rfl

theorem clampCol_length (c : Col) : (clampCol c).vals.length = c.vals.length := by
  simp [clampCol]

theorem cleanCol_length (c : Col) : (cleanCol c).vals.length = c.vals.length := by
  unfold cleanCol
  by_cases hk : c.name ∈ key_columns <;>
    by_cases hn : c.name ∈ non_negative_cols <;>
      simp [hk, hn, clampCol_length, imputeCol_length]

theorem imputeCol_no_missing (c : Col) (h : c.vals.any Value.isna = false) :
    imputeCol c = c := by
  unfold imputeCol
  rw [if_neg (by simp [h])]

theorem clampVal_of_nonneg (v : Value) (h : ∀ q, v = Value.num q → 0 ≤ q) :
    clampVal v = v := by
  cases v with
  | num q => simp [clampVal, not_lt.mpr (h q rfl)]
  | str s => rfl
  | missing => rfl

theorem clampCol_of_nonneg (c : Col) (h : ∀ q, Value.num q ∈ c.vals → 0 ≤ q) :
    clampCol c = c := by
  rcases c with ⟨nm, vs⟩
  simp only [clampCol, Col.mk.injEq, true_and]
  calc List.map clampVal vs
      = List.map id vs := by
        apply List.map_congr_left
        intro v hv
        exact clampVal_of_nonneg v (fun q hq => h q (hq ▸ hv))
    _ = vs := List.map_id vs

theorem cleanCol_of_clean (c : Col)
    (hmiss : c.name ∈ key_columns → c.vals.any Value.isna = false)
    (hneg : c.name ∈ non_negative_cols → ∀ q, Value.num q ∈ c.vals → 0 ≤ q) :
    cleanCol c = c := by
  unfold cleanCol
  by_cases hk : c.name ∈ key_columns <;> by_cases hn : c.name ∈ non_negative_cols
  · have e1 : imputeCol c = c := imputeCol_no_missing c (hmiss hk)
    have e2 : clampCol c = c := clampCol_of_nonneg c (hneg hn)
    simp [hk, hn, e1, e2]
  · have e1 : imputeCol c = c := imputeCol_no_missing c (hmiss hk)
    simp [hk, hn, e1]
  · have e2 : clampCol c = c := clampCol_of_nonneg c (hneg hn)
    simp [hk, hn, e2]
  · simp [hk, hn]

theorem cleanCol_untracked (c : Col)
    (h1 : c.name ∉ key_columns) (h2 : c.name ∉ non_negative_cols) :
    cleanCol c = c :=
  cleanCol_of_clean c (fun hk => absurd hk h1) (fun hn => absurd hn h2)

theorem hasCol_map_cleanCol (t : Table) (nm : String) :
    (Table.mk (t.cols.map cleanCol)).hasCol nm = t.hasCol nm := by
  simp [Table.hasCol, List.any_map, Function.comp_def, cleanCol_name]

theorem nrows_map_cleanCol (t : Table) :
    (Table.mk (t.cols.map cleanCol)).nrows = t.nrows := by
  rcases t with ⟨_ | ⟨c, cs⟩⟩
  · rfl
  · simp [Table.nrows, cleanCol_length]

/-- C6 (amended, for tables without a pre-existing marker column):
`clean_data` preserves the row count, appends at the end exactly one marker
column holding the constant post-clean string in every row, touches no cell
in any column outside the two fixed lists, and on a table with no missing
values and no negatives in the tracked columns every original cell survives
unchanged. -/
theorem clean_data_frame (t : Table) (hwf : t.WF)
    (hnc : t.hasCol "Cleaning" = false) :
    (clean_data t).cols = t.cols.map cleanCol ++ [markerCol t]
    ∧ (clean_data t).nrows = t.nrows
    ∧ (clean_data t).WF
    ∧ (clean_data t).cols.map Col.name = t.cols.map Col.name ++ ["Cleaning"]
    ∧ (∀ c ∈ t.cols, c.name ∉ key_columns → c.name ∉ non_negative_cols →
        c ∈ (clean_data t).cols)
    ∧ ((∀ c ∈ t.cols,
          (c.name ∈ key_columns → c.vals.any Value.isna = false)
          ∧ (c.name ∈ non_negative_cols → ∀ q, Value.num q ∈ c.vals → 0 ≤ q)) →
        (clean_data t).cols = t.cols ++ [markerCol t]) := by
  have hcols : (clean_data t).cols = t.cols.map cleanCol ++ [markerCol t] := by
    unfold clean_data setCol
    rw [if_neg (by rw [hasCol_map_cleanCol, hnc]; simp)]
    simp [markerCol, nrows_map_cleanCol]
  have hnrows : (clean_data t).nrows = t.nrows := by
    rw [Table.nrows, hcols]
    rcases t with ⟨_ | ⟨c, cs⟩⟩
    · simp [markerCol, Table.nrows]
    · simp [Table.nrows, cleanCol_length]
  refine ⟨hcols, hnrows, ?_, ?_, ?_, ?_⟩
  · intro c hc
    rw [hcols] at hc
    rw [hnrows]
    rcases List.mem_append.mp hc with hc | hc
    · obtain ⟨c0, hc0, rfl⟩ := List.mem_map.mp hc
      rw [cleanCol_length]
      exact hwf c0 hc0
    · simp only [List.mem_singleton] at hc
      subst hc
      simp [markerCol]
  · rw [hcols]
    simp [markerCol, cleanCol_name]
  · intro c hc h1 h2
    rw [hcols]
    refine List.mem_append.mpr (Or.inl ?_)
    exact List.mem_map.mpr ⟨c, hc, cleanCol_untracked c h1 h2⟩
  · intro hclean
    rw [hcols]
    congr 1
    calc t.cols.map cleanCol
        = t.cols.map id := by
          apply List.map_congr_left
          intro c hc
          exact cleanCol_of_clean c (hclean c hc).1 (hclean c hc).2
      _ = t.cols := List.map_id t.cols

/-- C6 (counterexample): on a table that already carries a `Cleaning`
column, `clean_data` does not append a column — the column count stays the
same — and it rewrites the cells of that pre-existing column, which lies
outside both fixed lists. -/
theorem clean_data_frame_counterexample :
    (clean_data preMarkedTable).cols.length = preMarkedTable.cols.length
    ∧ (clean_data preMarkedTable).cols.map Col.name
        ≠ preMarkedTable.cols.map Col.name ++ ["Cleaning"]
    ∧ "Cleaning" ∉ key_columns
    ∧ "Cleaning" ∉ non_negative_cols
    ∧ Table.getCol? (clean_data preMarkedTable) "Cleaning"
        ≠ Table.getCol? preMarkedTable "Cleaning" := by
  refine ⟨?_, ?_, by decide, by decide, ?_⟩ <;>
    · norm_num [clean_data, preMarkedTable, setCol, Table.hasCol, Table.nrows, Table.getCol?,
        cleanCol, key_columns, non_negative_cols, imputeCol, clampCol, Value.isna,
        clampVal_num, clampVal_str, clampVal_missing, List.find?, markerCol]
      try decide

/-- C6 witness: the frame conditions hold on the scenario table, which has
no pre-existing marker column. -/
theorem clean_data_frame_witness :
    scenarioTable.WF
    ∧ scenarioTable.hasCol "Cleaning" = false
    ∧ (clean_data scenarioTable).nrows = scenarioTable.nrows
    ∧ (clean_data scenarioTable).cols.map Col.name
        = scenarioTable.cols.map Col.name ++ ["Cleaning"] := by
  have h := clean_data_frame scenarioTable (by decide) (by decide)
  exact ⟨by decide, by decide, h.2.1, h.2.2.2.1⟩

/-! ### Idempotence of the cleaning steps -/

theorem isna_fillVal (m : ℚ) (v : Value) : (fillVal m v).isna = false := by
  unfold fillVal
  split
  · rfl
  · rename_i hne
    cases v with
    | num q => rfl
    | str s => rfl
    | missing => exact absurd rfl hne

theorem isna_clampVal (v : Value) : (clampVal v).isna = v.isna := by
  cases v with
  | num q =>
    rw [clampVal_num]
    split <;> rfl
  | str s => rfl
  | missing => rfl

theorem any_isna_clampCol (c : Col) :
    (clampCol c).vals.any Value.isna = c.vals.any Value.isna := by
  simp [clampCol, List.any_map, Function.comp_def, isna_clampVal]

theorem clampVal_idem (v : Value) : clampVal (clampVal v) = clampVal v := by
  cases v with
  | num q =>
    unfold clampVal
    by_cases h : q < 0
    · simp [h]
    · simp [h]
  | str s => rfl
  | missing => rfl

theorem clampCol_idem (c : Col) : clampCol (clampCol c) = clampCol c := by
  simp [clampCol, List.map_map, Function.comp_def, clampVal_idem]

theorem insertSorted_length (x : ℚ) (l : List ℚ) :
    (insertSorted x l).length = l.length + 1 := by
  induction l with
  | nil => rfl
  | cons y ys ih =>
    unfold insertSorted
    split
    · simp
    · simp [ih]

theorem sortQ_length (l : List ℚ) : (sortQ l).length = l.length := by
  induction l with
  | nil => rfl
  | cons x xs ih =>
    simp only [sortQ, List.foldr_cons] at ih ⊢
    rw [insertSorted_length, ih, List.length_cons]

theorem colMedian_eq_none_iff (vs : List Value) :
    colMedian vs = none ↔ vs.filterMap Value.toNum = [] := by
  unfold colMedian
  by_cases h : (sortQ (vs.filterMap Value.toNum)).isEmpty
  · simp only [h, if_true]
    have : (sortQ (vs.filterMap Value.toNum)).length = 0 := by
      rw [List.isEmpty_iff] at h
      simp [h]
    rw [sortQ_length] at this
    simp [List.length_eq_zero.mp this]
  · simp only [h, if_false]
    have hne : vs.filterMap Value.toNum ≠ [] := by
      intro he
      rw [List.isEmpty_iff] at h
      exact h (by simp [sortQ, he])
    constructor
    · intro hh
      by_cases hpar : (sortQ (vs.filterMap Value.toNum)).length % 2 = 1
      · rw [if_pos hpar] at hh
        exact absurd hh (by simp)
      · rw [if_neg hpar] at hh
        exact absurd hh (by simp)
    · intro he
      exact absurd he hne

theorem toNum_clampVal (v : Value) :
    (clampVal v).toNum = (v.toNum).map (fun q => if q < 0 then 0 else q) := by
  cases v with
  | num q =>
    unfold clampVal
    by_cases h : q < 0 <;> simp [h, Value.toNum]
  | str s => rfl
  | missing => rfl

theorem colNums_clampCol (c : Col) :
    (clampCol c).vals.filterMap Value.toNum
      = (c.vals.filterMap Value.toNum).map (fun q => if q < 0 then 0 else q) := by
  change (c.vals.map clampVal).filterMap Value.toNum = _
  rw [List.filterMap_map]
  rw [show (Value.toNum ∘ clampVal)
      = fun v => (Value.toNum v).map (fun q => if q < 0 then 0 else q) from
    funext toNum_clampVal]
  rw [← List.map_filterMap]

theorem imputeCol_result_no_missing (c : Col) :
    (imputeCol c).vals.any Value.isna = true
      → (imputeCol c).vals.filterMap Value.toNum = [] := by
  intro h
  by_cases hany : c.vals.any Value.isna = true
  · rcases hm : colMedian c.vals with _ | m
    · have he : imputeCol c = c := by
        unfold imputeCol
        rw [if_pos hany, hm]
      rw [he]
      exact (colMedian_eq_none_iff c.vals).mp hm
    · exfalso
      have he : imputeCol c = ⟨c.name, c.vals.map (fillVal m)⟩ := by
        unfold imputeCol
        rw [if_pos hany, hm]
      rw [he] at h
      simp [List.any_map, Function.comp_def, isna_fillVal] at h
  · have he : imputeCol c = c :=
      imputeCol_no_missing c (by simpa using hany)
    rw [he] at h
    exact absurd h hany

theorem imputeCol_idem (c : Col) : imputeCol (imputeCol c) = imputeCol c := by
  by_cases hany : c.vals.any Value.isna = true
  · rcases hm : colMedian c.vals with _ | m
    · have he : imputeCol c = c := by
        unfold imputeCol
        rw [if_pos hany, hm]
      rw [he]
      exact he
    · have he : imputeCol c = ⟨c.name, c.vals.map (fillVal m)⟩ := by
        unfold imputeCol
        rw [if_pos hany, hm]
      rw [he]
      apply imputeCol_no_missing
      simp [List.any_map, Function.comp_def, isna_fillVal]
  · have he : imputeCol c = c := imputeCol_no_missing c (by simpa using hany)
    rw [he, he]

theorem imputeCol_clampCol_imputeCol (c : Col) :
    imputeCol (clampCol (imputeCol c)) = clampCol (imputeCol c) := by
  by_cases hmiss : (clampCol (imputeCol c)).vals.any Value.isna = true
  · have h1 : (imputeCol c).vals.any Value.isna = true := by
      rw [← any_isna_clampCol]
      exact hmiss
    have h2 : (imputeCol c).vals.filterMap Value.toNum = [] :=
      imputeCol_result_no_missing c h1
    have h3 : (clampCol (imputeCol c)).vals.filterMap Value.toNum = [] := by
      rw [colNums_clampCol, h2]
      rfl
    have h4 : colMedian (clampCol (imputeCol c)).vals = none :=
      (colMedian_eq_none_iff _).mpr h3
    set d := clampCol (imputeCol c) with hd
    unfold imputeCol
    rw [if_pos hmiss, h4]
  · exact imputeCol_no_missing _ (by simpa using hmiss)

theorem cleanCol_idem (c : Col) : cleanCol (cleanCol c) = cleanCol c := by
  by_cases hk : c.name ∈ key_columns <;> by_cases hn : c.name ∈ non_negative_cols
  · have e1 : cleanCol c = clampCol (imputeCol c) := by
      simp [cleanCol, hk, hn]
    have e2 : cleanCol (clampCol (imputeCol c))
        = clampCol (imputeCol (clampCol (imputeCol c))) := by
      simp [cleanCol, clampCol_name, imputeCol_name, hk, hn]
    rw [e1, e2, imputeCol_clampCol_imputeCol, clampCol_idem]
  · have e1 : cleanCol c = imputeCol c := by
      simp [cleanCol, hk, hn]
    have e2 : cleanCol (imputeCol c) = imputeCol (imputeCol c) := by
      simp [cleanCol, imputeCol_name, hk, hn]
    rw [e1, e2, imputeCol_idem]
  · have e1 : cleanCol c = clampCol c := by
      simp [cleanCol, hk, hn]
    have e2 : cleanCol (clampCol c) = clampCol (clampCol c) := by
      simp [cleanCol, clampCol_name, hk, hn]
    rw [e1, e2, clampCol_idem]
  · rw [cleanCol_untracked c hk hn, cleanCol_untracked c hk hn]

theorem table_eta (t : Table) : Table.mk t.cols = t := rfl

theorem setCol_nrows (t : Table) (nm : String) (v : Value) :
    (setCol t nm v).nrows = t.nrows := by
  unfold setCol
  by_cases h : t.hasCol nm = true
  · rw [if_pos h]
    rcases t with ⟨_ | ⟨c, cs⟩⟩
    · rfl
    · by_cases hcn : c.name = nm
      · simp [Table.nrows, hcn]
      · simp [Table.nrows, hcn]
  · rw [if_neg h]
    rcases t with ⟨_ | ⟨c, cs⟩⟩
    · simp [Table.nrows]
    · simp [Table.nrows]

theorem clean_nrows (t : Table) : (clean_data t).nrows = t.nrows := by
  unfold clean_data
  rw [setCol_nrows, nrows_map_cleanCol]

theorem clean_hasCol (t : Table) : (clean_data t).hasCol "Cleaning" = true := by
  unfold clean_data setCol
  by_cases h : (Table.mk (t.cols.map cleanCol)).hasCol "Cleaning" = true
  · rw [if_pos h]
    unfold Table.hasCol at h ⊢
    rw [List.any_eq_true] at h ⊢
    obtain ⟨c, hc, hname⟩ := h
    simp only [decide_eq_true_eq] at hname
    exact ⟨⟨"Cleaning", List.replicate (Table.mk (t.cols.map cleanCol)).nrows
        (Value.str "Post-Clean")⟩,
      List.mem_map.mpr ⟨c, hc, by simp [hname]⟩, by simp⟩
  · rw [if_neg h]
    unfold Table.hasCol
    rw [List.any_eq_true]
    exact ⟨⟨"Cleaning", List.replicate (Table.mk (t.cols.map cleanCol)).nrows
        (Value.str "Post-Clean")⟩, by simp, by simp⟩

theorem clean_marker (t : Table) :
    ∀ c ∈ (clean_data t).cols, c.name = "Cleaning" →
      c = ⟨"Cleaning", List.replicate t.nrows (Value.str "Post-Clean")⟩ := by
  intro c hc hname
  unfold clean_data setCol at hc
  by_cases h : (Table.mk (t.cols.map cleanCol)).hasCol "Cleaning" = true
  · rw [if_pos h] at hc
    simp only [List.mem_map] at hc
    obtain ⟨c0, hc0, rfl⟩ := hc
    by_cases hcn : c0.name = "Cleaning"
    · simp [hcn, nrows_map_cleanCol]
    · rw [if_neg hcn] at hname ⊢
      exact absurd hname hcn
  · rw [if_neg h] at hc
    rcases List.mem_append.mp hc with hc | hc
    · exfalso
      apply h
      unfold Table.hasCol
      rw [List.any_eq_true]
      exact ⟨c, hc, by simp [hname]⟩
    · simp only [List.mem_singleton] at hc
      rw [hc]
      rw [nrows_map_cleanCol]

theorem clean_allclean (t : Table) :
    ∀ c ∈ (clean_data t).cols, cleanCol c = c := by
  intro c hc
  unfold clean_data setCol at hc
  by_cases h : (Table.mk (t.cols.map cleanCol)).hasCol "Cleaning" = true
  · rw [if_pos h] at hc
    obtain ⟨c0, hc0, rfl⟩ := List.mem_map.mp hc
    by_cases hcn : c0.name = "Cleaning"
    · rw [if_pos hcn]
      exact cleanCol_untracked _ (show ("Cleaning" : String) ∉ key_columns by decide)
        (show ("Cleaning" : String) ∉ non_negative_cols by decide)
    · rw [if_neg hcn]
      obtain ⟨c1, hc1, rfl⟩ := List.mem_map.mp hc0
      exact cleanCol_idem c1
  · rw [if_neg h] at hc
    rcases List.mem_append.mp hc with hc | hc
    · obtain ⟨c1, hc1, rfl⟩ := List.mem_map.mp hc
      exact cleanCol_idem c1
    · simp only [List.mem_singleton] at hc
      rw [hc]
      exact cleanCol_untracked _ (show ("Cleaning" : String) ∉ key_columns by decide)
        (show ("Cleaning" : String) ∉ non_negative_cols by decide)

/-- C5: cleaning an already-cleaned table is the identity — the value
corrections find nothing left to change and the marker column is
overwritten in place with the same constant, not duplicated. -/
theorem clean_data_idem (t : Table) : clean_data (clean_data t) = clean_data t := by
  have hmap : (clean_data t).cols.map cleanCol = (clean_data t).cols := by
    calc (clean_data t).cols.map cleanCol
        = (clean_data t).cols.map id := List.map_congr_left (clean_allclean t)
      _ = (clean_data t).cols := List.map_id _
  show setCol (Table.mk ((clean_data t).cols.map cleanCol)) "Cleaning" (.str "Post-Clean")
      = clean_data t
  rw [hmap, table_eta]
  unfold setCol
  rw [if_pos (clean_hasCol t)]
  have hrepl : (clean_data t).cols.map (fun c =>
      if c.name = "Cleaning" then
        ⟨"Cleaning", List.replicate (clean_data t).nrows (Value.str "Post-Clean")⟩
      else c) = (clean_data t).cols := by
    calc (clean_data t).cols.map _
        = (clean_data t).cols.map id := by
          apply List.map_congr_left
          intro c hc
          by_cases hcn : c.name = "Cleaning"
          · rw [if_pos hcn, clean_nrows]
            exact (clean_marker t c hc hcn).symm
          · rw [if_neg hcn]
            rfl
      _ = (clean_data t).cols := List.map_id _
  rw [hrepl, table_eta]

/-! ### The strong-correlation enumeration (C7) -/

theorem filterMap_ite_eq_filter_map {α β : Type} (l : List α) (p : α → Bool) (g : α → β) :
    l.filterMap (fun x => if p x then some (g x) else none) = (l.filter p).map g := by
  induction l with
  | nil => rfl
  | cons a l ih =>
    by_cases h : p a <;> simp [h, ih]

theorem filterMap_flatMap {α β γ : Type} (l : List α) (g : α → List β) (F : β → Option γ) :
    (l.flatMap g).filterMap F = l.flatMap (fun a => (g a).filterMap F) := by
  induction l with
  | nil => rfl
  | cons a l ih => simp [List.flatMap_cons, List.filterMap_append, ih]

theorem pairwise_flatMap {α β : Type} {R : β → β → Prop} {f : α → List β} {l : List α}
    (h1 : ∀ a ∈ l, (f a).Pairwise R)
    (h2 : l.Pairwise (fun a b => ∀ x ∈ f a, ∀ y ∈ f b, R x y)) :
    (l.flatMap f).Pairwise R := by
  induction l with
  | nil => simp
  | cons a l ih =>
    rw [List.flatMap_cons, List.pairwise_append]
    rw [List.pairwise_cons] at h2
    refine ⟨h1 a (by simp), ih (fun b hb => h1 b (by simp [hb])) h2.2, ?_⟩
    intro x hx y hy
    obtain ⟨b, hb, hyb⟩ := List.mem_flatMap.mp hy
    exact h2.1 b hb x hx y hyb

theorem mem_upperTriPairs {n i j : ℕ} :
    (i, j) ∈ upperTriPairs n ↔ i < j ∧ j < n := by
  unfold upperTriPairs
  rw [List.mem_flatMap]
  constructor
  · rintro ⟨a, ha, hmem⟩
    rw [List.mem_map] at hmem
    obtain ⟨b, hb, hab⟩ := hmem
    have h1 : a = i := congrArg Prod.fst hab
    have h2 : b = j := congrArg Prod.snd hab
    subst h1
    subst h2
    rw [List.mem_range] at ha
    rw [List.mem_range'_1] at hb
    omega
  · rintro ⟨hij, hjn⟩
    refine ⟨i, List.mem_range.mpr (by omega), ?_⟩
    rw [List.mem_map]
    refine ⟨j, ?_, rfl⟩
    rw [List.mem_range'_1]
    omega

/-- Lexicographic strict order on index pairs. -/
def pairLexLt (p q : ℕ × ℕ) : Prop :=
  p.1 < q.1 ∨ (p.1 = q.1 ∧ p.2 < q.2)

theorem pairwise_upperTriPairs (n : ℕ) :
    (upperTriPairs n).Pairwise pairLexLt := by
  unfold upperTriPairs
  apply pairwise_flatMap
  · intro a _
    rw [List.pairwise_map]
    apply List.Pairwise.imp ?_ (List.pairwise_lt_range' (a + 1) (n - (a + 1)))
    intro b c hbc
    exact Or.inr ⟨rfl, hbc⟩
  · apply List.Pairwise.imp ?_ (List.pairwise_lt_range n)
    intro a b hab
    intro x hx y hy
    rw [List.mem_map] at hx hy
    obtain ⟨xa, _, rfl⟩ := hx
    obtain ⟨yb, _, rfl⟩ := hy
    exact Or.inl hab

theorem name_getD_inj (cols : List Col) (hnd : (cols.map Col.name).Nodup)
    {i j : ℕ} (hi : i < cols.length) (hj : j < cols.length)
    (h : (cols.getD i default).name = (cols.getD j default).name) : i = j := by
  rw [List.getD_eq_getElem _ _ hi, List.getD_eq_getElem _ _ hj] at h
  have hi2 : i < (cols.map Col.name).length := by simpa
  have hj2 : j < (cols.map Col.name).length := by simpa
  have h2 : (cols.map Col.name)[i] = (cols.map Col.name)[j] := by
    simpa [List.getElem_map] using h
  exact (List.Nodup.getElem_inj_iff hnd).mp h2

/-- C7: with distinct numeric column names, `get_strong_correlations`
returns exactly the upper-triangular pairs (i, j), i < j, whose absolute
correlation exceeds the threshold, enumerated in the deterministic
lexicographic order of the matrix's column order; no (X, X) pair ever
appears and no unordered pair appears twice. -/
theorem get_strong_correlations_spec (t : Table) (thr : ℚ)
    (hnd : (t.numericCols.map Col.name).Nodup) :
    get_strong_correlations t thr
        = ((upperTriPairs t.numericCols.length).filter
            (strongFlag t.numericCols thr)).map (strongTriple t.numericCols)
    ∧ (∀ i j : ℕ, (i, j) ∈ upperTriPairs t.numericCols.length
        ↔ i < j ∧ j < t.numericCols.length)
    ∧ ((upperTriPairs t.numericCols.length).filter
        (strongFlag t.numericCols thr)).Pairwise pairLexLt
    ∧ (∀ x ∈ get_strong_correlations t thr, x.1 ≠ x.2.1)
    ∧ (get_strong_correlations t thr).Pairwise
        (fun x y => ¬(x.1 = y.1 ∧ x.2.1 = y.2.1) ∧ ¬(x.1 = y.2.1 ∧ x.2.1 = y.1)) := by
  have heq : get_strong_correlations t thr
      = ((upperTriPairs t.numericCols.length).filter
          (strongFlag t.numericCols thr)).map (strongTriple t.numericCols) := by
    unfold get_strong_correlations
    have h1 : ∀ i : ℕ, (List.range' (i + 1) (t.numericCols.length - (i + 1))).filterMap
        (fun j => if strongFlag t.numericCols thr (i, j)
          then some (strongTriple t.numericCols (i, j)) else none)
        = ((List.range' (i + 1) (t.numericCols.length - (i + 1))).map
            (fun j => (i, j))).filterMap
              (fun p => if strongFlag t.numericCols thr p
                then some (strongTriple t.numericCols p) else none) := by
      intro i
      rw [List.filterMap_map]
      congr 1
    simp only [h1]
    rw [← filterMap_flatMap]
    rw [filterMap_ite_eq_filter_map]
    rfl
  have hpw : ((upperTriPairs t.numericCols.length).filter
      (strongFlag t.numericCols thr)).Pairwise pairLexLt :=
    List.Pairwise.filter _ (pairwise_upperTriPairs t.numericCols.length)
  refine ⟨heq, fun i j => mem_upperTriPairs, hpw, ?_, ?_⟩
  · intro x hx
    rw [heq, List.mem_map] at hx
    obtain ⟨p, hp, rfl⟩ := hx
    rcases p with ⟨i, j⟩
    have hb := mem_upperTriPairs.mp (List.mem_filter.mp hp).1
    intro hcontra
    have := name_getD_inj t.numericCols hnd
      (show i < t.numericCols.length by omega)
      (show j < t.numericCols.length by omega) hcontra
    omega
  · rw [heq, List.pairwise_map]
    apply List.Pairwise.imp_of_mem ?_ hpw
    intro p q hpmem hqmem hlex
    have hpb := mem_upperTriPairs.mp (List.mem_filter.mp hpmem).1
    have hqb := mem_upperTriPairs.mp (List.mem_filter.mp hqmem).1
    rcases p with ⟨i, j⟩
    rcases q with ⟨k, l⟩
    simp only [strongTriple]
    rcases hlex with hl | ⟨hle, hl⟩ <;>
      constructor
    · rintro ⟨h1, h2⟩
      have hik := name_getD_inj t.numericCols hnd
        (show i < t.numericCols.length by omega)
        (show k < t.numericCols.length by omega) h1
      omega
    · rintro ⟨h1, h2⟩
      have hil := name_getD_inj t.numericCols hnd
        (show i < t.numericCols.length by omega)
        (show l < t.numericCols.length by omega) h1
      have hjk := name_getD_inj t.numericCols hnd
        (show j < t.numericCols.length by omega)
        (show k < t.numericCols.length by omega) h2
      omega
    · rintro ⟨h1, h2⟩
      have hjl := name_getD_inj t.numericCols hnd
        (show j < t.numericCols.length by omega)
        (show l < t.numericCols.length by omega) h2
      omega
    · rintro ⟨h1, h2⟩
      have hil := name_getD_inj t.numericCols hnd
        (show i < t.numericCols.length by omega)
        (show l < t.numericCols.length by omega) h1
      have hjk := name_getD_inj t.numericCols hnd
        (show j < t.numericCols.length by omega)
        (show k < t.numericCols.length by omega) h2
      omega

/-- C7 witness: the scenario table has distinct numeric column names and
its strong-correlation list contains no (X, X) pair. -/
theorem get_strong_correlations_spec_witness :
    (scenarioTable.numericCols.map Col.name).Nodup
    ∧ (∀ x ∈ get_strong_correlations scenarioTable (1 / 2), x.1 ≠ x.2.1) := by
  have h := get_strong_correlations_spec scenarioTable (1 / 2) (by decide)
  exact ⟨by decide, h.2.2.2.1⟩
